import Mathlib

/- Verification of the route-finding core (DistanceMap / RoutePlan) of the
   endless-sky repository.  The header source/DistanceMap.h declares the data
   model and the member functions; the function bodies live in a translation
   unit that is not part of the reviewed sources, so the algorithm itself is
   modelled from the design document (spec.md), following its sections 3, 4.2,
   4.3 and 7.  Systems are identified by natural numbers; the real-valued
   danger scalar of a system is modelled by a rational number. -/

/-- The external, read-only system graph (spec section 6): per system its
hyperlane neighbors, its jump-drive proximity neighbors (the result of the
spatial within-jump-range query, which is a collaborator outside the engine),
its wormhole links, and its danger scalar. -/
structure StarGraph where
  systems : List Nat
  links : Nat → List Nat
  jumpNeighbors : Nat → List Nat
  wormholes : Nat → List Nat
  danger : Nat → ℚ

/-- DistanceMap::Edge (DistanceMap.h lines 79-97): the predecessor system on
the route, cumulative fuel, cumulative days, and the cumulative danger up to
the previous system.  prev = none marks the root edge of the search. -/
structure Edge where
  prev : Option Nat
  fuel : Int
  days : Int
  danger : ℚ
deriving Repr, DecidableEq

/-- The root candidate edge pushed for the center system (spec section 4.2
step 1): no predecessor and zero fuel, days and danger. -/
def rootEdge : Edge := { prev := none, fuel := 0, days := 0, danger := 0 }

/-- Modelled from the spec: the body of the sorting operator declared at
DistanceMap.h line 86 is not in the reviewed sources.  Spec section 3: the
priority queue order is days ascending, then fuel ascending, then danger
ascending, and an edge is lower priority ("worse") than another exactly when
the other sorts strictly before it. -/
def Edge.lt (a b : Edge) : Bool :=
  if a.days ≠ b.days then decide (a.days > b.days)
  else if a.fuel ≠ b.fuel then decide (a.fuel > b.fuel)
  else decide (a.danger > b.danger)

/-- The lexicographic sort key (days, fuel, danger) of an edge. -/
def Edge.key (e : Edge) : Int ×ₗ (Int ×ₗ ℚ) :=
  toLex (e.days, toLex (e.fuel, e.danger))

theorem Edge.key_lt_iff (a b : Edge) : a.key < b.key ↔
    a.days < b.days ∨ (a.days = b.days ∧
      (a.fuel < b.fuel ∨ (a.fuel = b.fuel ∧ a.danger < b.danger))) := by
  unfold Edge.key
  rw [Prod.Lex.lt_iff]
  constructor
  · rintro (h | ⟨h1, h2⟩)
    · exact Or.inl h
    · rw [Prod.Lex.lt_iff] at h2
      exact Or.inr ⟨h1, h2⟩
  · rintro (h | ⟨h1, h2⟩)
    · exact Or.inl h
    · exact Or.inr ⟨h1, (Prod.Lex.lt_iff _ _).mpr h2⟩

theorem Edge.key_le_iff (a b : Edge) : a.key ≤ b.key ↔
    a.days < b.days ∨ (a.days = b.days ∧
      (a.fuel < b.fuel ∨ (a.fuel = b.fuel ∧ a.danger ≤ b.danger))) := by
  unfold Edge.key
  rw [Prod.Lex.le_iff]
  constructor
  · rintro (h | ⟨h1, h2⟩)
    · exact Or.inl h
    · rw [Prod.Lex.le_iff] at h2
      exact Or.inr ⟨h1, h2⟩
  · rintro (h | ⟨h1, h2⟩)
    · exact Or.inl h
    · exact Or.inr ⟨h1, (Prod.Lex.le_iff _ _).mpr h2⟩

theorem Edge.lt_iff_key (a b : Edge) : Edge.lt a b = true ↔ b.key < a.key := by
  unfold Edge.lt
  rw [Edge.key_lt_iff]
  by_cases hd : a.days = b.days
  · rw [if_neg (fun hne => hne hd)]
    by_cases hf : a.fuel = b.fuel
    · rw [if_neg (fun hne => hne hf)]
      simp only [decide_eq_true_eq, gt_iff_lt]
      constructor
      · intro h; exact Or.inr ⟨hd.symm, Or.inr ⟨hf.symm, h⟩⟩
      · rintro (h | ⟨h1, h | ⟨h2, h⟩⟩)
        · omega
        · omega
        · exact h
    · rw [if_pos hf]
      simp only [decide_eq_true_eq, gt_iff_lt]
      constructor
      · intro h; exact Or.inr ⟨hd.symm, Or.inl h⟩
      · rintro (h | ⟨h1, h | ⟨h2, h⟩⟩)
        · omega
        · exact h
        · omega
  · rw [if_pos hd]
    simp only [decide_eq_true_eq, gt_iff_lt]
    constructor
    · intro h; exact Or.inl h
    · rintro (h | ⟨h1, h⟩)
      · exact h
      · omega

/-- Modelled from the spec: the search context of spec section 3 — the private
configuration fields of DistanceMap (DistanceMap.h lines 117-139) together
with the external graph and the player-knowledge oracle.  The visited oracle
matters only when hasPlayer is true (the PlayerInfo constructor, line 47). -/
structure Context where
  graph : StarGraph
  center : Nat
  destination : Option Nat
  maxSystems : Int
  maxDays : Int
  hyperspaceFuel : Int
  jumpFuel : Int
  useWormholes : Bool
  jumpRange : ℚ
  hasPlayer : Bool
  visited : Nat → Bool

/-- Modelled from the spec: the body of DistanceMap::CheckLink (declared at
DistanceMap.h line 114) is not in the reviewed sources.  Spec section 4.2:
true unconditionally when no player context was supplied; with a player,
hyperlane links require a visited endpoint while jump-drive proximity edges
(useJump) bypass the requirement. -/
def CheckLink (ctx : Context) (fromS toS : Nat) (useJump : Bool) : Bool :=
  if ctx.hasPlayer = false then true
  else useJump || ctx.visited fromS || ctx.visited toS

/-- Modelled from the spec: wormhole eligibility.  The header stores only the
flag useWormholes (DistanceMap.h line 138); spec section 4.2 subjects
restricted wormhole use to the same visited-endpoint test as hyperlanes when a
player context is present, which is the gating modelled here. -/
def CheckWormhole (ctx : Context) (fromS toS : Nat) : Bool :=
  if ctx.hasPlayer = false then true
  else ctx.visited fromS || ctx.visited toS

/-- Lookup of the recorded edge of a system in an association-list route
mapping (std::map route, DistanceMap.h line 119). -/
def findEdge (s : Nat) : List (Nat × Edge) → Option Edge
  | [] => none
  | (t, e) :: rest => if t = s then some e else findEdge s rest

/-- Modelled from the spec: the body of DistanceMap::HasBetter (declared at
DistanceMap.h line 108) is not in the reviewed sources.  Spec section 4.2
step 4: a candidate is pushed only when strictly better than the edge already
recorded for the target, i.e. it is skipped when a recorded edge exists that
is not lower priority than the candidate. -/
def HasBetter (route : List (Nat × Edge)) (toS : Nat) (e : Edge) : Bool :=
  match findEdge toS route with
  | none => false
  | some r => ! Edge.lt r e

/-- Modelled from the spec: the candidate edge built for a neighbor of the
just-finalized system u — one more day, the per-mode fuel cost, and the danger
of u added, since Edge.danger tracks danger only up to the previous system
(DistanceMap.h lines 93-96). -/
def relax (ctx : Context) (e : Edge) (u : Nat) (cost : Int) : Edge :=
  { prev := some u, fuel := e.fuel + cost, days := e.days + 1,
    danger := e.danger + ctx.graph.danger u }

/-- Modelled from the spec: the three categories of outgoing edges the search
enumerates (spec section 4.2 step 4): hyperlane links when a hyperdrive is
present, jump-drive proximity edges when a jump drive is present, and wormhole
links when enabled.  A zero fuel cost or a zero jump range encodes an absent
drive (DistanceMap.h lines 133-139). -/
inductive EligibleStep (ctx : Context) : Nat → Nat → Int → Prop
  | hyper (u v : Nat) : ctx.hyperspaceFuel ≠ 0 → v ∈ ctx.graph.links u →
      CheckLink ctx u v false = true → EligibleStep ctx u v ctx.hyperspaceFuel
  | jump (u v : Nat) : ctx.jumpFuel ≠ 0 → ctx.jumpRange ≠ 0 →
      v ∈ ctx.graph.jumpNeighbors u → CheckLink ctx u v true = true →
      EligibleStep ctx u v ctx.jumpFuel
  | wormhole (u v : Nat) : ctx.useWormholes = true → v ∈ ctx.graph.wormholes u →
      CheckWormhole ctx u v = true → EligibleStep ctx u v 0

/-- Modelled from the spec: all candidate edges out of the just-finalized
system u with finalized edge e, before the HasBetter filter. -/
def expandList (ctx : Context) (u : Nat) (e : Edge) : List (Nat × Edge) :=
  (if ctx.hyperspaceFuel ≠ 0 then
    (ctx.graph.links u).filterMap (fun v =>
      if CheckLink ctx u v false then some (v, relax ctx e u ctx.hyperspaceFuel) else none)
  else [])
  ++ (if ctx.jumpFuel ≠ 0 ∧ ctx.jumpRange ≠ 0 then
    (ctx.graph.jumpNeighbors u).filterMap (fun v =>
      if CheckLink ctx u v true then some (v, relax ctx e u ctx.jumpFuel) else none)
  else [])
  ++ (if ctx.useWormholes then
    (ctx.graph.wormholes u).filterMap (fun v =>
      if CheckWormhole ctx u v then some (v, relax ctx e u 0) else none)
  else [])

/-- Modelled from the spec: the candidates actually pushed when expanding the
just-finalized system u — those not filtered out by HasBetter against the
route mapping (spec section 4.2 step 4). -/
def expand (ctx : Context) (routeNow : List (Nat × Edge)) (u : Nat) (e : Edge) :
    List (Nat × Edge) :=
  (expandList ctx u e).filter (fun c => ! HasBetter routeNow c.1 c.2)

theorem mem_expandList (ctx : Context) (u : Nat) (e : Edge) (v : Nat) (c : Edge) :
    (v, c) ∈ expandList ctx u e ↔
      ∃ cost, EligibleStep ctx u v cost ∧ c = relax ctx e u cost := by
  unfold expandList
  simp only [List.mem_append]
  constructor
  · intro h
    rcases h with (h | h) | h
    · by_cases hh : ctx.hyperspaceFuel ≠ 0
      · rw [if_pos hh, List.mem_filterMap] at h
        obtain ⟨w, hw, hsome⟩ := h
        by_cases hc : CheckLink ctx u w false = true
        · rw [if_pos hc] at hsome
          simp only [Option.some.injEq, Prod.mk.injEq] at hsome
          obtain ⟨hv, hrel⟩ := hsome
          exact ⟨ctx.hyperspaceFuel, hv ▸ EligibleStep.hyper u w hh hw hc, hrel.symm⟩
        · rw [if_neg hc] at hsome; exact Option.noConfusion hsome
      · rw [if_neg hh] at h; exact absurd h (List.not_mem_nil _)
    · by_cases hh : ctx.jumpFuel ≠ 0 ∧ ctx.jumpRange ≠ 0
      · rw [if_pos hh, List.mem_filterMap] at h
        obtain ⟨w, hw, hsome⟩ := h
        by_cases hc : CheckLink ctx u w true = true
        · rw [if_pos hc] at hsome
          simp only [Option.some.injEq, Prod.mk.injEq] at hsome
          obtain ⟨hv, hrel⟩ := hsome
          exact ⟨ctx.jumpFuel, hv ▸ EligibleStep.jump u w hh.1 hh.2 hw hc, hrel.symm⟩
        · rw [if_neg hc] at hsome; exact Option.noConfusion hsome
      · rw [if_neg hh] at h; exact absurd h (List.not_mem_nil _)
    · by_cases hh : ctx.useWormholes = true
      · rw [if_pos hh, List.mem_filterMap] at h
        obtain ⟨w, hw, hsome⟩ := h
        by_cases hc : CheckWormhole ctx u w = true
        · rw [if_pos hc] at hsome
          simp only [Option.some.injEq, Prod.mk.injEq] at hsome
          obtain ⟨hv, hrel⟩ := hsome
          exact ⟨0, hv ▸ EligibleStep.wormhole u w hh hw hc, hrel.symm⟩
        · rw [if_neg hc] at hsome; exact Option.noConfusion hsome
      · rw [if_neg hh] at h; exact absurd h (List.not_mem_nil _)
  · rintro ⟨cost, hstep, rfl⟩
    cases hstep with
    | hyper hh hmem hc =>
      refine Or.inl (Or.inl ?_)
      rw [if_pos hh, List.mem_filterMap]
      exact ⟨v, hmem, by rw [if_pos hc]⟩
    | jump hf hr hmem hc =>
      refine Or.inl (Or.inr ?_)
      rw [if_pos (And.intro hf hr), List.mem_filterMap]
      exact ⟨v, hmem, by rw [if_pos hc]⟩
    | wormhole hh hmem hc =>
      refine Or.inr ?_
      rw [if_pos hh, List.mem_filterMap]
      exact ⟨v, hmem, by rw [if_pos hc]⟩

/-- Modelled from the spec: std::priority_queue pop — an entry than which no
other queue entry has strictly higher priority, together with the remaining
entries.  Tie order among equal keys is unspecified in the header and is
resolved positionally here. -/
def selectBest (x : Nat × Edge) : List (Nat × Edge) → ((Nat × Edge) × List (Nat × Edge))
  | [] => (x, [])
  | y :: ys =>
    if Edge.lt x.2 y.2 then
      ((selectBest y ys).1, x :: (selectBest y ys).2)
    else
      ((selectBest x ys).1, y :: (selectBest x ys).2)

/-- Modelled from the spec: the pop operation of the candidate queue. -/
def popBest : List (Nat × Edge) → Option ((Nat × Edge) × List (Nat × Edge))
  | [] => none
  | x :: xs => some (selectBest x xs)

theorem selectBest_perm (x : Nat × Edge) (l : List (Nat × Edge)) :
    List.Perm ((selectBest x l).1 :: (selectBest x l).2) (x :: l) := by
  induction l generalizing x with
  | nil => simp [selectBest]
  | cons y ys ih =>
    by_cases h : Edge.lt x.2 y.2 = true
    · simp only [selectBest, h, if_pos]
      exact (List.Perm.swap x (selectBest y ys).1 (selectBest y ys).2).trans ((ih y).cons x)
    · simp only [selectBest, h, if_neg, Bool.false_eq_true, not_false_eq_true]
      exact ((List.Perm.swap y (selectBest x ys).1 (selectBest x ys).2).trans
        ((ih x).cons y)).trans (List.Perm.swap x y ys)

theorem selectBest_min (x : Nat × Edge) (l : List (Nat × Edge)) :
    ∀ z ∈ x :: l, (selectBest x l).1.2.key ≤ z.2.key := by
  induction l generalizing x with
  | nil =>
    intro z hz
    rcases List.mem_singleton.mp hz with rfl
    exact le_refl _
  | cons y ys ih =>
    intro z hz
    by_cases h : Edge.lt x.2 y.2 = true
    · have hxy : y.2.key < x.2.key := (Edge.lt_iff_key _ _).mp h
      simp only [selectBest, h, if_pos]
      rcases List.mem_cons.mp hz with rfl | hz'
      · exact le_of_lt (lt_of_le_of_lt (ih y y (List.mem_cons_self y ys)) hxy)
      · exact ih y z hz'
    · have hxy : x.2.key ≤ y.2.key := by
        by_contra hc
        exact h ((Edge.lt_iff_key _ _).mpr (lt_of_not_le hc))
      simp only [selectBest, h, if_neg, Bool.false_eq_true, not_false_eq_true]
      rcases List.mem_cons.mp hz with rfl | hz'
      · exact ih z z (List.mem_cons_self z ys)
      · rcases List.mem_cons.mp hz' with rfl | hz''
        · exact le_trans (ih x x (List.mem_cons_self x ys)) hxy
        · exact ih x z (List.mem_cons.mpr (Or.inr hz''))

theorem popBest_perm (q : List (Nat × Edge)) (p : Nat × Edge)
    (rest : List (Nat × Edge)) (h : popBest q = some (p, rest)) :
    List.Perm q (p :: rest) := by
  cases q with
  | nil => cases h
  | cons x xs =>
    have hx := selectBest_perm x xs
    unfold popBest at h
    have h2 : selectBest x xs = (p, rest) := Option.some_inj.mp h
    rw [h2] at hx
    exact hx.symm

theorem popBest_min (q : List (Nat × Edge)) (p : Nat × Edge)
    (rest : List (Nat × Edge)) (h : popBest q = some (p, rest)) :
    ∀ z ∈ q, p.2.key ≤ z.2.key := by
  cases q with
  | nil => cases h
  | cons x xs =>
    have hx := selectBest_min x xs
    unfold popBest at h
    have h2 : selectBest x xs = (p, rest) := Option.some_inj.mp h
    rw [h2] at hx
    exact hx

theorem popBest_eq_none (q : List (Nat × Edge)) : popBest q = none ↔ q = [] := by
  cases q with
  | nil => simp [popBest]
  | cons x xs => simp [popBest]

/-- The mutable state of the search loop inside DistanceMap::Init: the route
mapping of finalized edges (DistanceMap.h line 119), the candidate queue
edgesTodo (line 127) modelled as a list of (system, edge) pairs per spec
section 3, and whether a stop condition has fired. -/
structure SearchState where
  route : List (Nat × Edge)
  queue : List (Nat × Edge)
  stopped : Bool
deriving Repr, DecidableEq

/-- Modelled from the spec: the initial state of the search (spec section 4.2
step 1): empty route mapping and the root candidate for the center system. -/
def initState (ctx : Context) : SearchState :=
  { route := [], queue := [(ctx.center, rootEdge)], stopped := false }

/-- Modelled from the spec: one iteration of the search loop of
DistanceMap::Init (declared at DistanceMap.h line 104; body not in the
reviewed sources), following spec section 4.2 steps 2-5: pop the best
candidate, discard it if stale, otherwise finalize it; stop at the
destination; do not run at all once the route mapping holds maxSystems
entries; expand the finalized system unless its days have reached maxDays.
Returns none when the loop has terminated. -/
def stepOnce (ctx : Context) (s : SearchState) : Option SearchState :=
  if s.stopped = true then none
  else if 0 ≤ ctx.maxSystems ∧ ctx.maxSystems ≤ (s.route.length : Int) then none
  else
    match popBest s.queue with
    | none => none
    | some ((sys, c), rest) =>
      if (findEdge sys s.route).isSome then
        some { route := s.route, queue := rest, stopped := false }
      else if ctx.destination = some sys then
        some { route := (sys, c) :: s.route, queue := rest, stopped := true }
      else if 0 ≤ ctx.maxDays ∧ ctx.maxDays ≤ c.days then
        some { route := (sys, c) :: s.route, queue := rest, stopped := false }
      else
        some { route := (sys, c) :: s.route,
               queue := rest ++ expand ctx ((sys, c) :: s.route) sys c,
               stopped := false }

/-- Modelled from the spec: the search loop, driven by an explicit step
budget; the budget fuelBound below provably suffices for full termination. -/
def run (ctx : Context) : Nat → SearchState → SearchState
  | 0, s => s
  | n + 1, s =>
    match stepOnce ctx s with
    | none => s
    | some s2 => run ctx n s2

/-- An upper bound on the number of candidates one expansion can push. -/
def degBound (ctx : Context) : Nat :=
  ctx.graph.systems.foldr
    (fun u m => max ((ctx.graph.links u).length + (ctx.graph.jumpNeighbors u).length
      + (ctx.graph.wormholes u).length) m) 0

/-- A step budget sufficient for the search loop to terminate (one finalization
per system, each pushing at most degBound candidates, plus the root). -/
def fuelBound (ctx : Context) : Nat :=
  ctx.graph.systems.length * (degBound ctx + 1) + 1

/-- Modelled from the spec: the complete search executed by the DistanceMap
constructors: run the loop from the initial state until it terminates. -/
def search (ctx : Context) : SearchState :=
  run ctx (fuelBound ctx) (initState ctx)

/-- The finalized route mapping of a constructed DistanceMap. -/
def DistanceMap.routeOf (ctx : Context) : List (Nat × Edge) :=
  (search ctx).route

/-- DistanceMap::HasRoute (DistanceMap.h line 50): whether the system acquired
a finalized entry. -/
def DistanceMap.HasRoute (ctx : Context) (s : Nat) : Bool :=
  (findEdge s (DistanceMap.routeOf ctx)).isSome

/-- DistanceMap::Days (DistanceMap.h line 52): days to the system, with the
sentinel -1 for systems without a finalized entry (spec section 7). -/
def DistanceMap.Days (ctx : Context) (s : Nat) : Int :=
  match findEdge s (DistanceMap.routeOf ctx) with
  | some e => e.days
  | none => -1

/-- DistanceMap::Systems (DistanceMap.h line 56): all systems holding a
finalized entry. -/
def DistanceMap.Systems (ctx : Context) : List Nat :=
  (DistanceMap.routeOf ctx).map Prod.fst

/-- The public DistanceMap constructor from a bare system (DistanceMap.h
line 42) with the header defaults (lines 128-139): no player, no
destination, hyperlane fuel 100, no jump drive and no wormholes. -/
def DistanceMap.ofSystem (g : StarGraph) (center : Nat) (maxSys maxD : Int) : Context :=
  { graph := g, center := center, destination := none,
    maxSystems := maxSys, maxDays := maxD,
    hyperspaceFuel := 100, jumpFuel := 0, useWormholes := false, jumpRange := 0,
    hasPlayer := false, visited := fun _ => false }

/-- Modelled from the spec: the backward walk of RoutePlan::Init (spec section
4.3): follow prev references from the destination through the route mapping
until the edge with prev = none, collecting (system, edge) pairs; the result
list starts at the destination (DistanceMap.h line 169).  The fuel argument
bounds the recursion; the length of the route mapping suffices. -/
def chainFrom (route : List (Nat × Edge)) : Nat → Nat → List (Nat × Edge)
  | 0, _ => []
  | n + 1, s =>
    match findEdge s route with
    | none => []
    | some e =>
      (s, e) :: (match e.prev with
        | none => []
        | some p => chainFrom route n p)

/-- The reconstructed plan of a RoutePlan (DistanceMap.h line 170):
plan.front() is the destination, the last entry is the start. -/
def RoutePlan.planOf (ctx : Context) (dest : Nat) : List (Nat × Edge) :=
  chainFrom (search ctx).route (search ctx).route.length dest

/-- RoutePlan::HasRoute (DistanceMap.h line 152): the destination acquired a
finalized entry. -/
def RoutePlan.hasRouteOf (ctx : Context) (dest : Nat) : Bool :=
  (findEdge dest (search ctx).route).isSome

/-- RoutePlan::Plan (DistanceMap.h line 161): the ordered system sequence from
the start to the destination. -/
def RoutePlan.Plan (ctx : Context) (dest : Nat) : List Nat :=
  ((RoutePlan.planOf ctx dest).map Prod.fst).reverse

/-- RoutePlan::Days (DistanceMap.h line 156): cumulative days at the
destination, or the sentinel -1 when unreachable (spec section 7). -/
def RoutePlan.Days (ctx : Context) (dest : Nat) : Int :=
  match RoutePlan.planOf ctx dest with
  | [] => -1
  | (_, e) :: _ => e.days

/-- RoutePlan::RequiredFuel (DistanceMap.h line 158): cumulative fuel at the
destination, or the sentinel -1 when unreachable (spec section 7). -/
def RoutePlan.RequiredFuel (ctx : Context) (dest : Nat) : Int :=
  match RoutePlan.planOf ctx dest with
  | [] => -1
  | (_, e) :: _ => e.fuel

/-- Modelled from the spec: the per-step fuel values of RoutePlan::FuelCosts
(DistanceMap.h line 163): each chain entry is paired with the difference
between its cumulative fuel and the next (earlier) cumulative fuel; the last
entry, the start, is paired with its own fuel, its difference with zero. -/
def stepCosts : List (Nat × Edge) → List (Nat × Int)
  | [] => []
  | (s, e) :: [] => [(s, e.fuel)]
  | (s, e) :: (t, e2) :: rest => (s, e.fuel - e2.fuel) :: stepCosts ((t, e2) :: rest)

/-- RoutePlan::FuelCosts (DistanceMap.h line 163). -/
def RoutePlan.FuelCosts (ctx : Context) (dest : Nat) : List (Nat × Int) :=
  stepCosts (RoutePlan.planOf ctx dest)

theorem findEdge_mem (s : Nat) (R : List (Nat × Edge)) (e : Edge)
    (h : findEdge s R = some e) : (s, e) ∈ R := by
  induction R with
  | nil => cases h
  | cons x xs ih =>
    obtain ⟨t, c⟩ := x
    unfold findEdge at h
    by_cases ht : t = s
    · rw [if_pos ht] at h
      rw [ht, Option.some_inj.mp h]
      exact List.mem_cons_self _ _
    · rw [if_neg ht] at h
      exact List.mem_cons.mpr (Or.inr (ih h))

theorem findEdge_eq_none_iff (s : Nat) (R : List (Nat × Edge)) :
    findEdge s R = none ↔ s ∉ R.map Prod.fst := by
  induction R with
  | nil => simp [findEdge]
  | cons x xs ih =>
    obtain ⟨t, c⟩ := x
    unfold findEdge
    by_cases ht : t = s
    · simp [ht]
    · simp only [if_neg ht, List.map_cons, List.mem_cons, ih]
      constructor
      · intro h hc
        rcases hc with hc | hc
        · exact ht hc.symm
        · exact h hc
      · intro h
        exact fun hc => h (Or.inr hc)

theorem findEdge_cons_preserve (s sys : Nat) (c e : Edge) (R : List (Nat × Edge))
    (hnew : findEdge sys R = none) (h : findEdge s R = some e) :
    findEdge s ((sys, c) :: R) = some e := by
  unfold findEdge
  by_cases hs : sys = s
  · rw [hs] at hnew
    rw [hnew] at h
    exact Option.noConfusion h
  · rw [if_neg hs]
    exact h

theorem stepOnce_cases (ctx : Context) (s s2 : SearchState) (h : stepOnce ctx s = some s2) :
    s.stopped = false ∧
    ¬(0 ≤ ctx.maxSystems ∧ ctx.maxSystems ≤ (s.route.length : Int)) ∧
    ∃ sys c rest, popBest s.queue = some ((sys, c), rest) ∧
      (((findEdge sys s.route).isSome ∧ s2 = ⟨s.route, rest, false⟩) ∨
        (findEdge sys s.route = none ∧
          ((ctx.destination = some sys ∧ s2 = ⟨(sys, c) :: s.route, rest, true⟩) ∨
           (ctx.destination ≠ some sys ∧ (0 ≤ ctx.maxDays ∧ ctx.maxDays ≤ c.days) ∧
             s2 = ⟨(sys, c) :: s.route, rest, false⟩) ∨
           (ctx.destination ≠ some sys ∧ ¬(0 ≤ ctx.maxDays ∧ ctx.maxDays ≤ c.days) ∧
             s2 = ⟨(sys, c) :: s.route,
                   rest ++ expand ctx ((sys, c) :: s.route) sys c, false⟩)))) := by
  unfold stepOnce at h
  by_cases h1 : s.stopped = true
  · rw [if_pos h1] at h; exact Option.noConfusion h
  · rw [if_neg h1] at h
    have h1f : s.stopped = false := by
      revert h1; cases s.stopped <;> simp
    by_cases h2 : 0 ≤ ctx.maxSystems ∧ ctx.maxSystems ≤ (s.route.length : Int)
    · rw [if_pos h2] at h; exact Option.noConfusion h
    · rw [if_neg h2] at h
      cases hq : popBest s.queue with
      | none => rw [hq] at h; exact Option.noConfusion h
      | some pr =>
        obtain ⟨⟨sys, c⟩, rest⟩ := pr
        simp only [hq] at h
        refine ⟨h1f, h2, sys, c, rest, rfl, ?_⟩
        by_cases h3 : (findEdge sys s.route).isSome
        · rw [if_pos h3] at h
          exact Or.inl ⟨h3, (Option.some_inj.mp h).symm⟩
        · rw [if_neg h3] at h
          have h3n : findEdge sys s.route = none := by
            revert h3; cases findEdge sys s.route <;> simp
          refine Or.inr ⟨h3n, ?_⟩
          by_cases h4 : ctx.destination = some sys
          · rw [if_pos h4] at h
            exact Or.inl ⟨h4, (Option.some_inj.mp h).symm⟩
          · rw [if_neg h4] at h
            by_cases h5 : 0 ≤ ctx.maxDays ∧ ctx.maxDays ≤ c.days
            · rw [if_pos h5] at h
              exact Or.inr (Or.inl ⟨h4, h5, (Option.some_inj.mp h).symm⟩)
            · rw [if_neg h5] at h
              exact Or.inr (Or.inr ⟨h4, h5, (Option.some_inj.mp h).symm⟩)

theorem stepOnce_route_preserve (ctx : Context) (s s2 : SearchState)
    (h : stepOnce ctx s = some s2) (sys : Nat) (e : Edge)
    (hf : findEdge sys s.route = some e) : findEdge sys s2.route = some e := by
  obtain ⟨-, -, sys2, c, rest, -, hbr⟩ := stepOnce_cases ctx s s2 h
  rcases hbr with ⟨-, rfl⟩ | ⟨hnone, hbr⟩
  · exact hf
  · rcases hbr with ⟨-, rfl⟩ | ⟨-, -, rfl⟩ | ⟨-, -, rfl⟩ <;>
      exact findEdge_cons_preserve sys sys2 c e s.route hnone hf

theorem run_route_preserve (ctx : Context) (n : Nat) (s : SearchState) (sys : Nat) (e : Edge)
    (hf : findEdge sys s.route = some e) : findEdge sys (run ctx n s).route = some e := by
  induction n generalizing s with
  | zero => exact hf
  | succ m ih =>
    unfold run
    cases hs : stepOnce ctx s with
    | none => exact hf
    | some s2 => exact ih s2 (stepOnce_route_preserve ctx s s2 hs sys e hf)

/-- A path of eligible edges from the center: the system together with the
cumulative edge the branching search of spec section 4.2 would build for it.
This is the notion of "alternative path" quantified over by the optimality
property (spec section 8). -/
inductive Reaches (ctx : Context) : Nat → Edge → Prop
  | root : Reaches ctx ctx.center rootEdge
  | step (u : Nat) (e : Edge) (v : Nat) (cost : Int) :
      Reaches ctx u e → EligibleStep ctx u v cost →
      Reaches ctx v (relax ctx e u cost)

theorem relax_days (ctx : Context) (e : Edge) (u : Nat) (cost : Int) :
    (relax ctx e u cost).days = e.days + 1 := rfl

theorem days_le_of_key_le (a b : Edge) (h : a.key ≤ b.key) : a.days ≤ b.days := by
  rcases (Edge.key_le_iff a b).mp h with h1 | ⟨h1, -⟩
  · omega
  · omega

theorem key_lt_relax (ctx : Context) (e : Edge) (u : Nat) (cost : Int) :
    e.key < (relax ctx e u cost).key := by
  rw [Edge.key_lt_iff]
  exact Or.inl (by simp [relax])

theorem relax_key_mono (ctx : Context) (a b : Edge) (u : Nat) (cost : Int)
    (h : a.key ≤ b.key) : (relax ctx a u cost).key ≤ (relax ctx b u cost).key := by
  rw [Edge.key_le_iff] at h ⊢
  simp only [relax]
  rcases h with h1 | ⟨h1, h2 | ⟨h2, h3⟩⟩
  · exact Or.inl (by omega)
  · exact Or.inr ⟨by omega, Or.inl (by omega)⟩
  · exact Or.inr ⟨by omega, Or.inr ⟨by omega, by
      exact add_le_add_right h3 (ctx.graph.danger u)⟩⟩

theorem rootEdge_key_le (ctx : Context) (X : Nat) (e : Edge) (h : Reaches ctx X e) :
    rootEdge.key ≤ e.key := by
  induction h with
  | root => exact le_refl _
  | step u e2 v cost hr hstep ih =>
    exact le_trans ih (le_of_lt (key_lt_relax ctx e2 u cost))

/-- Coverage of a candidate edge for a specific system: the system already
holds a finalized edge at least as good, or the queue holds a candidate for
this very system at least as good, or the candidate has exceeded the maxDays
search bound. -/
def Covered (ctx : Context) (s : SearchState) (X : Nat) (e2 : Edge) : Prop :=
  (∃ ef, findEdge X s.route = some ef ∧ ef.key ≤ e2.key)
  ∨ (∃ q ∈ s.queue, Prod.fst q = X ∧ Edge.key q.2 ≤ e2.key)
  ∨ (0 ≤ ctx.maxDays ∧ ctx.maxDays < e2.days)

/-- Expansion closure: every eligible edge out of a finalized system leads to
a covered candidate. -/
def ECProp (ctx : Context) (s : SearchState) : Prop :=
  ∀ u ef v cost, (u, ef) ∈ s.route → EligibleStep ctx u v cost →
    Covered ctx s v (relax ctx ef u cost)

/-- The center is finalized at least as well as the root candidate, or the
root candidate is still queued. -/
def RootCov (ctx : Context) (s : SearchState) : Prop :=
  (∃ ef, findEdge ctx.center s.route = some ef ∧ ef.key ≤ rootEdge.key)
  ∨ (ctx.center, rootEdge) ∈ s.queue

/-- The search invariant: finalized edges are sound and optimal, queue
candidates are sound, both respect the maxDays bound, the route respects the
maxSystems bound, and while no stop condition has fired the expansion-closure
and root-coverage frontier facts hold. -/
structure SearchInv (ctx : Context) (s : SearchState) : Prop where
  nodupKeys : (s.route.map Prod.fst).Nodup
  routeSound : ∀ S e, (S, e) ∈ s.route → Reaches ctx S e
  routeOpt : ∀ S e, (S, e) ∈ s.route → ∀ e2, Reaches ctx S e2 → e.key ≤ e2.key
  queueSound : ∀ q ∈ s.queue, Reaches ctx q.1 q.2
  queueDays : 0 ≤ ctx.maxDays → ∀ q ∈ s.queue, (Edge.days q.2) ≤ ctx.maxDays
  routeDays : 0 ≤ ctx.maxDays → ∀ S e, (S, e) ∈ s.route → e.days ≤ ctx.maxDays
  routeLen : 0 ≤ ctx.maxSystems → (s.route.length : Int) ≤ ctx.maxSystems
  ecp : s.stopped = false → ECProp ctx s
  rootCov : s.stopped = false → RootCov ctx s

theorem findEdge_of_mem (S : Nat) (e : Edge) (R : List (Nat × Edge))
    (hnd : (R.map Prod.fst).Nodup) (h : (S, e) ∈ R) : findEdge S R = some e := by
  induction R with
  | nil => cases h
  | cons x xs ih =>
    obtain ⟨t, c⟩ := x
    rcases List.mem_cons.mp h with heq | hmem
    · obtain ⟨h1, h2⟩ := Prod.mk.injEq _ _ _ _ ▸ heq
      unfold findEdge
      rw [if_pos h1.symm, h2]
    · unfold findEdge
      by_cases ht : t = S
      · exfalso
        have : S ∈ xs.map Prod.fst := List.mem_map.mpr ⟨(S, e), hmem, rfl⟩
        rw [List.map_cons] at hnd
        exact (List.nodup_cons.mp hnd).1 (ht ▸ this)
      · rw [if_neg ht]
        exact ih (List.nodup_cons.mp (List.map_cons _ _ _ ▸ hnd)).2 hmem

theorem inv_init (ctx : Context) : SearchInv ctx (initState ctx) := by
  refine ⟨?_, ?_, ?_, ?_, ?_, ?_, ?_, ?_, ?_⟩
  · simp [initState]
  · intro S e h; cases h
  · intro S e h; cases h
  · intro q hq
    rcases List.mem_singleton.mp hq with rfl
    exact Reaches.root
  · intro hmd q hq
    rcases List.mem_singleton.mp hq with rfl
    simpa [rootEdge] using hmd
  · intro hmd S e h; cases h
  · intro h; simp [initState]
    exact h
  · intro _ u ef v cost hmem
    cases hmem
  · intro _
    exact Or.inr (List.mem_singleton.mpr rfl)

theorem frontierCov (ctx : Context) (s : SearchState) (hI : SearchInv ctx s)
    (hstop : s.stopped = false) (X : Nat) (e2 : Edge) (h : Reaches ctx X e2) :
    (∃ ef, findEdge X s.route = some ef ∧ ef.key ≤ e2.key)
    ∨ (∃ q ∈ s.queue, Edge.key q.2 ≤ e2.key)
    ∨ (0 ≤ ctx.maxDays ∧ ctx.maxDays < e2.days) := by
  induction h with
  | root =>
    rcases hI.rootCov hstop with ⟨ef, hef, hle⟩ | hq
    · exact Or.inl ⟨ef, hef, hle⟩
    · exact Or.inr (Or.inl ⟨(ctx.center, rootEdge), hq, le_refl _⟩)
  | step u e v cost hr hstep ih =>
    rcases ih with ⟨ef, hef, hle⟩ | ⟨q, hq, hle⟩ | ⟨hmd, hgt⟩
    · have hc := hI.ecp hstop u ef v cost (findEdge_mem u s.route ef hef) hstep
      have hmono := relax_key_mono ctx ef e u cost hle
      rcases hc with ⟨ef2, hef2, hle2⟩ | ⟨q, hq, hqv, hle2⟩ | ⟨hmd, hgt⟩
      · exact Or.inl ⟨ef2, hef2, le_trans hle2 hmono⟩
      · exact Or.inr (Or.inl ⟨q, hq, le_trans hle2 hmono⟩)
      · refine Or.inr (Or.inr ⟨hmd, ?_⟩)
        have hdd : ef.days ≤ e.days := days_le_of_key_le ef e hle
        rw [relax_days] at hgt ⊢
        omega
    · exact Or.inr (Or.inl ⟨q, hq, le_trans hle (le_of_lt (key_lt_relax ctx e u cost))⟩)
    · refine Or.inr (Or.inr ⟨hmd, ?_⟩)
      rw [relax_days]
      omega

theorem key_le_of_days_lt (a b : Edge) (h : a.days < b.days) : a.key ≤ b.key := by
  rw [Edge.key_le_iff]
  exact Or.inl h

theorem findEdge_cons_self (sys : Nat) (c : Edge) (R : List (Nat × Edge)) :
    findEdge sys ((sys, c) :: R) = some c := by
  unfold findEdge
  rw [if_pos rfl]

theorem HasBetter_eval_none (R : List (Nat × Edge)) (toS : Nat) (e : Edge)
    (h : findEdge toS R = none) : HasBetter R toS e = false := by
  unfold HasBetter
  rw [h]

theorem HasBetter_eval_some (R : List (Nat × Edge)) (toS : Nat) (e r : Edge)
    (h : findEdge toS R = some r) : HasBetter R toS e = !(Edge.lt r e) := by
  unfold HasBetter
  rw [h]

theorem HasBetter_eq_true_iff (R : List (Nat × Edge)) (v : Nat) (e : Edge) :
    HasBetter R v e = true ↔ ∃ r, findEdge v R = some r ∧ r.key ≤ e.key := by
  cases hf : findEdge v R with
  | none =>
    rw [HasBetter_eval_none R v e hf]
    constructor
    · intro h; exact Bool.noConfusion h
    · rintro ⟨r, hr, -⟩; exact Option.noConfusion hr
  | some r =>
    rw [HasBetter_eval_some R v e r hf]
    constructor
    · intro hl
      have hfalse : Edge.lt r e = false := by
        cases h2 : Edge.lt r e
        · rfl
        · rw [h2] at hl; simp at hl
      refine ⟨r, rfl, le_of_not_lt fun hlt => ?_⟩
      rw [(Edge.lt_iff_key r e).mpr hlt] at hfalse
      exact Bool.noConfusion hfalse
    · rintro ⟨r2, hr2, hle⟩
      have hrr : r = r2 := Option.some_inj.mp hr2
      subst hrr
      have hfalse : Edge.lt r e = false := by
        cases h2 : Edge.lt r e
        · rfl
        · exact absurd ((Edge.lt_iff_key _ _).mp h2) (not_lt_of_le hle)
      rw [hfalse]
      rfl

theorem mem_expand_iff (ctx : Context) (R : List (Nat × Edge)) (u : Nat) (e : Edge)
    (v : Nat) (c : Edge) : (v, c) ∈ expand ctx R u e ↔
      ((∃ cost, EligibleStep ctx u v cost ∧ c = relax ctx e u cost) ∧
        HasBetter R v c = false) := by
  unfold expand
  rw [List.mem_filter]
  rw [mem_expandList]
  constructor
  · rintro ⟨h1, h2⟩
    refine ⟨h1, ?_⟩
    cases h3 : HasBetter R v c
    · rfl
    · rw [h3] at h2; simp at h2
  · rintro ⟨h1, h2⟩
    refine ⟨h1, ?_⟩
    rw [h2]
    rfl

theorem popped_opt (ctx : Context) (s : SearchState) (sys : Nat) (c : Edge)
    (rest : List (Nat × Edge)) (hI : SearchInv ctx s) (hstop : s.stopped = false)
    (hq : popBest s.queue = some ((sys, c), rest))
    (hnone : findEdge sys s.route = none)
    (e2 : Edge) (h2 : Reaches ctx sys e2) : c.key ≤ e2.key := by
  have hcq : (sys, c) ∈ s.queue :=
    (popBest_perm s.queue (sys, c) rest hq).mem_iff.mpr (List.mem_cons_self _ _)
  rcases frontierCov ctx s hI hstop sys e2 h2 with ⟨ef, hef, -⟩ | ⟨q, hq2, hle⟩ | ⟨hmd, hgt⟩
  · rw [hnone] at hef; exact Option.noConfusion hef
  · exact le_trans (popBest_min s.queue (sys, c) rest hq q hq2) hle
  · have hcd : c.days ≤ ctx.maxDays := hI.queueDays hmd (sys, c) hcq
    exact key_le_of_days_lt c e2 (by omega)

theorem inv_step_stale (ctx : Context) (s : SearchState) (sys : Nat) (c : Edge)
    (rest : List (Nat × Edge)) (hI : SearchInv ctx s) (hstop : s.stopped = false)
    (hq : popBest s.queue = some ((sys, c), rest))
    (ef0 : Edge) (hef0 : findEdge sys s.route = some ef0) :
    SearchInv ctx ⟨s.route, rest, false⟩ := by
  have hperm := popBest_perm s.queue (sys, c) rest hq
  have hcq : (sys, c) ∈ s.queue := hperm.mem_iff.mpr (List.mem_cons_self _ _)
  have hrestq : ∀ z ∈ rest, z ∈ s.queue := fun z hz =>
    hperm.mem_iff.mpr (List.mem_cons.mpr (Or.inr hz))
  have hopt0 : ef0.key ≤ c.key :=
    hI.routeOpt sys ef0 (findEdge_mem sys s.route ef0 hef0) c (hI.queueSound (sys, c) hcq)
  refine ⟨hI.nodupKeys, hI.routeSound, hI.routeOpt, ?_, ?_, hI.routeDays, hI.routeLen, ?_, ?_⟩
  · exact fun q hq2 => hI.queueSound q (hrestq q hq2)
  · exact fun hmd q hq2 => hI.queueDays hmd q (hrestq q hq2)
  · intro _ u ef v cost hu hstep
    rcases hI.ecp hstop u ef v cost hu hstep with ⟨ef2, hef2, hle2⟩ | ⟨q, hq2, hqv, hle2⟩ | h3
    · exact Or.inl ⟨ef2, hef2, hle2⟩
    · rcases List.mem_cons.mp (hperm.mem_iff.mp hq2) with rfl | hq3
      · refine Or.inl ⟨ef0, ?_, le_trans hopt0 hle2⟩
        rw [← hqv]
        exact hef0
      · exact Or.inr (Or.inl ⟨q, hq3, hqv, hle2⟩)
    · exact Or.inr (Or.inr h3)
  · intro _
    rcases hI.rootCov hstop with h1 | hmem
    · exact Or.inl h1
    · rcases List.mem_cons.mp (hperm.mem_iff.mp hmem) with heq | hmem2
      · obtain ⟨h1, h2⟩ := Prod.mk.injEq _ _ _ _ ▸ heq
        refine Or.inl ⟨ef0, by rw [h1]; exact hef0, ?_⟩
        rw [← h2] at hopt0
        exact hopt0
      · exact Or.inr hmem2

theorem inv_step_dest (ctx : Context) (s : SearchState) (sys : Nat) (c : Edge)
    (rest : List (Nat × Edge)) (hI : SearchInv ctx s) (hstop : s.stopped = false)
    (hq : popBest s.queue = some ((sys, c), rest))
    (hnone : findEdge sys s.route = none)
    (hlen : ¬(0 ≤ ctx.maxSystems ∧ ctx.maxSystems ≤ (s.route.length : Int))) :
    SearchInv ctx ⟨(sys, c) :: s.route, rest, true⟩ := by
  have hperm := popBest_perm s.queue (sys, c) rest hq
  have hcq : (sys, c) ∈ s.queue := hperm.mem_iff.mpr (List.mem_cons_self _ _)
  have hrestq : ∀ z ∈ rest, z ∈ s.queue := fun z hz =>
    hperm.mem_iff.mpr (List.mem_cons.mpr (Or.inr hz))
  have hsc : Reaches ctx sys c := hI.queueSound (sys, c) hcq
  refine ⟨?_, ?_, ?_, ?_, ?_, ?_, ?_, ?_, ?_⟩
  · rw [List.map_cons]
    exact List.nodup_cons.mpr ⟨(findEdge_eq_none_iff sys s.route).mp hnone, hI.nodupKeys⟩
  · intro S e h
    rcases List.mem_cons.mp h with heq | hmem
    · obtain ⟨h1, h2⟩ := Prod.mk.injEq _ _ _ _ ▸ heq
      rw [h1, h2]
      exact hsc
    · exact hI.routeSound S e hmem
  · intro S e h d2 hd2
    rcases List.mem_cons.mp h with heq | hmem
    · obtain ⟨h1, h2⟩ := Prod.mk.injEq _ _ _ _ ▸ heq
      rw [h2]
      exact popped_opt ctx s sys c rest hI hstop hq hnone d2 (h1 ▸ hd2)
    · exact hI.routeOpt S e hmem d2 hd2
  · exact fun q hq2 => hI.queueSound q (hrestq q hq2)
  · exact fun hmd q hq2 => hI.queueDays hmd q (hrestq q hq2)
  · intro hmd S e h
    rcases List.mem_cons.mp h with heq | hmem
    · obtain ⟨h1, h2⟩ := Prod.mk.injEq _ _ _ _ ▸ heq
      rw [h2]
      exact hI.queueDays hmd (sys, c) hcq
    · exact hI.routeDays hmd S e hmem
  · intro hms
    have h3 : ¬(ctx.maxSystems ≤ (s.route.length : Int)) := fun hc => hlen ⟨hms, hc⟩
    simp only [List.length_cons]
    omega
  · intro hh
    exact Bool.noConfusion hh
  · intro hh
    exact Bool.noConfusion hh

theorem inv_step_days (ctx : Context) (s : SearchState) (sys : Nat) (c : Edge)
    (rest : List (Nat × Edge)) (hI : SearchInv ctx s) (hstop : s.stopped = false)
    (hq : popBest s.queue = some ((sys, c), rest))
    (hnone : findEdge sys s.route = none)
    (hlen : ¬(0 ≤ ctx.maxSystems ∧ ctx.maxSystems ≤ (s.route.length : Int)))
    (hdays : 0 ≤ ctx.maxDays ∧ ctx.maxDays ≤ c.days) :
    SearchInv ctx ⟨(sys, c) :: s.route, rest, false⟩ := by
  have hperm := popBest_perm s.queue (sys, c) rest hq
  have hcq : (sys, c) ∈ s.queue := hperm.mem_iff.mpr (List.mem_cons_self _ _)
  have hrestq : ∀ z ∈ rest, z ∈ s.queue := fun z hz =>
    hperm.mem_iff.mpr (List.mem_cons.mpr (Or.inr hz))
  have hsc : Reaches ctx sys c := hI.queueSound (sys, c) hcq
  refine ⟨?_, ?_, ?_, ?_, ?_, ?_, ?_, ?_, ?_⟩
  · rw [List.map_cons]
    exact List.nodup_cons.mpr ⟨(findEdge_eq_none_iff sys s.route).mp hnone, hI.nodupKeys⟩
  · intro S e h
    rcases List.mem_cons.mp h with heq | hmem
    · obtain ⟨h1, h2⟩ := Prod.mk.injEq _ _ _ _ ▸ heq
      rw [h1, h2]
      exact hsc
    · exact hI.routeSound S e hmem
  · intro S e h d2 hd2
    rcases List.mem_cons.mp h with heq | hmem
    · obtain ⟨h1, h2⟩ := Prod.mk.injEq _ _ _ _ ▸ heq
      rw [h2]
      exact popped_opt ctx s sys c rest hI hstop hq hnone d2 (h1 ▸ hd2)
    · exact hI.routeOpt S e hmem d2 hd2
  · exact fun q hq2 => hI.queueSound q (hrestq q hq2)
  · exact fun hmd q hq2 => hI.queueDays hmd q (hrestq q hq2)
  · intro hmd S e h
    rcases List.mem_cons.mp h with heq | hmem
    · obtain ⟨h1, h2⟩ := Prod.mk.injEq _ _ _ _ ▸ heq
      rw [h2]
      exact hI.queueDays hmd (sys, c) hcq
    · exact hI.routeDays hmd S e hmem
  · intro hms
    have h3 : ¬(ctx.maxSystems ≤ (s.route.length : Int)) := fun hc => hlen ⟨hms, hc⟩
    simp only [List.length_cons]
    omega
  · intro _ u ef v cost hu hstep
    rcases List.mem_cons.mp hu with heq | hmem
    · obtain ⟨h1, h2⟩ := Prod.mk.injEq _ _ _ _ ▸ heq
      refine Or.inr (Or.inr ⟨hdays.1, ?_⟩)
      rw [relax_days, h2]
      omega
    · rcases hI.ecp hstop u ef v cost hmem hstep with
        ⟨ef2, hef2, hle2⟩ | ⟨q, hq2, hqv, hle2⟩ | h3
      · exact Or.inl ⟨ef2, findEdge_cons_preserve v sys c ef2 s.route hnone hef2, hle2⟩
      · rcases List.mem_cons.mp (hperm.mem_iff.mp hq2) with rfl | hq3
        · refine Or.inl ⟨c, ?_, hle2⟩
          rw [← hqv]
          exact findEdge_cons_self sys c s.route
        · exact Or.inr (Or.inl ⟨q, hq3, hqv, hle2⟩)
      · exact Or.inr (Or.inr h3)
  · intro _
    rcases hI.rootCov hstop with ⟨ef, hef, hle⟩ | hmem
    · exact Or.inl ⟨ef, findEdge_cons_preserve ctx.center sys c ef s.route hnone hef, hle⟩
    · rcases List.mem_cons.mp (hperm.mem_iff.mp hmem) with heq | hmem2
      · obtain ⟨h1, h2⟩ := Prod.mk.injEq _ _ _ _ ▸ heq
        refine Or.inl ⟨c, ?_, ?_⟩
        · rw [h1]
          exact findEdge_cons_self sys c s.route
        · rw [← h2]
      · exact Or.inr hmem2

theorem inv_step_expand (ctx : Context) (s : SearchState) (sys : Nat) (c : Edge)
    (rest : List (Nat × Edge)) (hI : SearchInv ctx s) (hstop : s.stopped = false)
    (hq : popBest s.queue = some ((sys, c), rest))
    (hnone : findEdge sys s.route = none)
    (hlen : ¬(0 ≤ ctx.maxSystems ∧ ctx.maxSystems ≤ (s.route.length : Int)))
    (hnd : ¬(0 ≤ ctx.maxDays ∧ ctx.maxDays ≤ c.days)) :
    SearchInv ctx ⟨(sys, c) :: s.route,
      rest ++ expand ctx ((sys, c) :: s.route) sys c, false⟩ := by
  have hperm := popBest_perm s.queue (sys, c) rest hq
  have hcq : (sys, c) ∈ s.queue := hperm.mem_iff.mpr (List.mem_cons_self _ _)
  have hrestq : ∀ z ∈ rest, z ∈ s.queue := fun z hz =>
    hperm.mem_iff.mpr (List.mem_cons.mpr (Or.inr hz))
  have hsc : Reaches ctx sys c := hI.queueSound (sys, c) hcq
  refine ⟨?_, ?_, ?_, ?_, ?_, ?_, ?_, ?_, ?_⟩
  · rw [List.map_cons]
    exact List.nodup_cons.mpr ⟨(findEdge_eq_none_iff sys s.route).mp hnone, hI.nodupKeys⟩
  · intro S e h
    rcases List.mem_cons.mp h with heq | hmem
    · obtain ⟨h1, h2⟩ := Prod.mk.injEq _ _ _ _ ▸ heq
      rw [h1, h2]
      exact hsc
    · exact hI.routeSound S e hmem
  · intro S e h d2 hd2
    rcases List.mem_cons.mp h with heq | hmem
    · obtain ⟨h1, h2⟩ := Prod.mk.injEq _ _ _ _ ▸ heq
      rw [h2]
      exact popped_opt ctx s sys c rest hI hstop hq hnone d2 (h1 ▸ hd2)
    · exact hI.routeOpt S e hmem d2 hd2
  · intro q hq2
    rcases List.mem_append.mp hq2 with h | h
    · exact hI.queueSound q (hrestq q h)
    · obtain ⟨qv, qc⟩ := q
      obtain ⟨⟨cost, hstep, rfl⟩, -⟩ :=
        (mem_expand_iff ctx ((sys, c) :: s.route) sys c qv qc).mp h
      exact Reaches.step sys c qv cost hsc hstep
  · intro hmd q hq2
    rcases List.mem_append.mp hq2 with h | h
    · exact hI.queueDays hmd q (hrestq q h)
    · obtain ⟨qv, qc⟩ := q
      obtain ⟨⟨cost, hstep, rfl⟩, -⟩ :=
        (mem_expand_iff ctx ((sys, c) :: s.route) sys c qv qc).mp h
      show (relax ctx c sys cost).days ≤ ctx.maxDays
      have h3 : ¬(ctx.maxDays ≤ c.days) := fun hc => hnd ⟨hmd, hc⟩
      rw [relax_days]
      omega
  · intro hmd S e h
    rcases List.mem_cons.mp h with heq | hmem
    · obtain ⟨h1, h2⟩ := Prod.mk.injEq _ _ _ _ ▸ heq
      rw [h2]
      exact hI.queueDays hmd (sys, c) hcq
    · exact hI.routeDays hmd S e hmem
  · intro hms
    have h3 : ¬(ctx.maxSystems ≤ (s.route.length : Int)) := fun hc => hlen ⟨hms, hc⟩
    simp only [List.length_cons]
    omega
  · intro _ u ef v cost hu hstep
    rcases List.mem_cons.mp hu with heq | hmem
    · obtain ⟨h1, h2⟩ := Prod.mk.injEq _ _ _ _ ▸ heq
      subst h1
      subst h2
      by_cases hb : HasBetter ((u, ef) :: s.route) v (relax ctx ef u cost) = true
      · obtain ⟨r, hr, hle⟩ := (HasBetter_eq_true_iff _ _ _).mp hb
        exact Or.inl ⟨r, hr, hle⟩
      · have hbf : HasBetter ((u, ef) :: s.route) v (relax ctx ef u cost) = false := by
          revert hb
          cases HasBetter ((u, ef) :: s.route) v (relax ctx ef u cost) <;> simp
        refine Or.inr (Or.inl ⟨(v, relax ctx ef u cost), ?_, rfl, le_refl _⟩)
        refine List.mem_append.mpr (Or.inr ?_)
        exact (mem_expand_iff ctx ((u, ef) :: s.route) u ef v
          (relax ctx ef u cost)).mpr ⟨⟨cost, hstep, rfl⟩, hbf⟩
    · rcases hI.ecp hstop u ef v cost hmem hstep with
        ⟨ef2, hef2, hle2⟩ | ⟨q, hq2, hqv, hle2⟩ | h3
      · exact Or.inl ⟨ef2, findEdge_cons_preserve v sys c ef2 s.route hnone hef2, hle2⟩
      · rcases List.mem_cons.mp (hperm.mem_iff.mp hq2) with rfl | hq3
        · refine Or.inl ⟨c, ?_, hle2⟩
          rw [← hqv]
          exact findEdge_cons_self sys c s.route
        · exact Or.inr (Or.inl ⟨q, List.mem_append.mpr (Or.inl hq3), hqv, hle2⟩)
      · exact Or.inr (Or.inr h3)
  · intro _
    rcases hI.rootCov hstop with ⟨ef, hef, hle⟩ | hmem
    · exact Or.inl ⟨ef, findEdge_cons_preserve ctx.center sys c ef s.route hnone hef, hle⟩
    · rcases List.mem_cons.mp (hperm.mem_iff.mp hmem) with heq | hmem2
      · obtain ⟨h1, h2⟩ := Prod.mk.injEq _ _ _ _ ▸ heq
        refine Or.inl ⟨c, ?_, ?_⟩
        · rw [h1]
          exact findEdge_cons_self sys c s.route
        · rw [← h2]
      · exact Or.inr (List.mem_append.mpr (Or.inl hmem2))

theorem inv_step (ctx : Context) (s s2 : SearchState) (hI : SearchInv ctx s)
    (h : stepOnce ctx s = some s2) : SearchInv ctx s2 := by
  obtain ⟨hstop, hlen, sys, c, rest, hq, hbr⟩ := stepOnce_cases ctx s s2 h
  rcases hbr with ⟨hsome, rfl⟩ | ⟨hnone, hbr⟩
  · obtain ⟨ef0, hef0⟩ := Option.isSome_iff_exists.mp hsome
    exact inv_step_stale ctx s sys c rest hI hstop hq ef0 hef0
  · rcases hbr with ⟨hdest, rfl⟩ | ⟨hndest, hdays, rfl⟩ | ⟨hndest, hnd, rfl⟩
    · exact inv_step_dest ctx s sys c rest hI hstop hq hnone hlen
    · exact inv_step_days ctx s sys c rest hI hstop hq hnone hlen hdays
    · exact inv_step_expand ctx s sys c rest hI hstop hq hnone hlen hnd

theorem inv_run (ctx : Context) (n : Nat) (s : SearchState) (hI : SearchInv ctx s) :
    SearchInv ctx (run ctx n s) := by
  induction n generalizing s with
  | zero => exact hI
  | succ m ih =>
    unfold run
    cases hs : stepOnce ctx s with
    | none => exact hI
    | some s2 => exact ih s2 (inv_step ctx s s2 hI hs)

theorem inv_search (ctx : Context) : SearchInv ctx (search ctx) :=
  inv_run ctx (fuelBound ctx) (initState ctx) (inv_init ctx)

/-- C1: For every system S that acquires a finalized entry in the route
mapping, no alternative path from the start system to S (a chain of eligible
edges, as captured by Reaches) has a strictly smaller (days, fuel, danger)
triple under lexicographic comparison than the finalized edge recorded for S:
the modified Dijkstra search produces optimal edges under the custom ordering
for every reachable system. -/
theorem C1_dijkstra_optimal (ctx : Context) (S : Nat) (e : Edge)
    (hmem : findEdge S (search ctx).route = some e)
    (e2 : Edge) (h2 : Reaches ctx S e2) : ¬ Edge.key e2 < Edge.key e :=
  not_lt_of_le ((inv_search ctx).routeOpt S e
    (findEdge_mem S (search ctx).route e hmem) e2 h2)

/-- A two-system graph joined by a hyperlane in each direction, used as the
concrete instance for witnesses. -/
def witGraph : StarGraph :=
  { systems := [0, 1], links := fun u => if u = 0 then [1] else [0],
    jumpNeighbors := fun _ => [], wormholes := fun _ => [], danger := fun _ => 0 }

/-- The bare-system DistanceMap on witGraph with no bounds. -/
def witCtx : Context := DistanceMap.ofSystem witGraph 0 (-1) (-1)

theorem C1_witness :
    findEdge 0 (search witCtx).route = some rootEdge ∧
    Reaches witCtx 0 rootEdge ∧
    ¬ Edge.key rootEdge < Edge.key rootEdge :=
  ⟨by decide, Reaches.root,
    C1_dijkstra_optimal witCtx 0 rootEdge (by decide) rootEdge Reaches.root⟩

/-- C2: once a system acquires an entry in the route mapping via finalization,
that entry is never overwritten: after any number of further steps of the
search loop the route mapping still records the same edge for it. -/
theorem C2_finalized_persistent (ctx : Context) (s : SearchState) (n : Nat)
    (S : Nat) (e : Edge) (h : findEdge S s.route = some e) :
    findEdge S (run ctx n s).route = some e :=
  run_route_preserve ctx n s S e h

theorem C2_witness :
    findEdge 7 (SearchState.mk [(7, rootEdge)] [] false).route = some rootEdge ∧
    findEdge 7 (run witCtx 5 (SearchState.mk [(7, rootEdge)] [] false)).route
      = some rootEdge :=
  ⟨by decide,
    C2_finalized_persistent witCtx (SearchState.mk [(7, rootEdge)] [] false) 5 7 rootEdge
      (by decide)⟩

/-- C3: the comparison operator on Edge is the total lexicographic order with
primary key days ascending, tie-break fuel ascending, tie-break danger
ascending: a < b (a is lower priority) exactly when the key of b sorts
strictly before the key of a; consequently the priority-queue pop always
returns an edge whose (days, fuel, danger) key is smallest among the queued
candidates. -/
theorem C3_edge_order (a b : Edge) :
    (Edge.lt a b = true ↔ Edge.key b < Edge.key a) ∧
    (∀ (q : List (Nat × Edge)) (p : Nat × Edge) (rest : List (Nat × Edge)),
      popBest q = some (p, rest) → ∀ z ∈ q, Edge.key p.2 ≤ Edge.key z.2) :=
  ⟨Edge.lt_iff_key a b, fun q p rest h => popBest_min q p rest h⟩

theorem C3_witness :
    (Edge.lt rootEdge rootEdge = true ↔ Edge.key rootEdge < Edge.key rootEdge) ∧
    popBest [(0, rootEdge)] = some ((0, rootEdge), []) ∧
    Edge.key rootEdge ≤ Edge.key rootEdge := by
  refine ⟨(C3_edge_order rootEdge rootEdge).1, rfl, ?_⟩
  exact (C3_edge_order rootEdge rootEdge).2 [(0, rootEdge)] (0, rootEdge) [] rfl
    (0, rootEdge) (List.mem_singleton.mpr rfl)

/-- C4: CheckLink returns true for every pair of systems when the DistanceMap
was constructed without a player context; with a player context, a hyperlane
link is eligible exactly when the player has visited one of its endpoints,
while a jump-drive proximity edge is eligible regardless of which endpoints
the player has visited. -/
theorem C4_checkLink (ctx : Context) :
    (ctx.hasPlayer = false → ∀ a b : Nat, ∀ j : Bool, CheckLink ctx a b j = true) ∧
    (ctx.hasPlayer = true →
      (∀ a b : Nat, CheckLink ctx a b false = true ↔
        (ctx.visited a = true ∨ ctx.visited b = true)) ∧
      (∀ a b : Nat, CheckLink ctx a b true = true)) := by
  constructor
  · intro hp a b j
    unfold CheckLink
    rw [if_pos hp]
  · intro hp
    have hp2 : ¬(ctx.hasPlayer = false) := by
      rw [hp]
      exact fun hc => Bool.noConfusion hc
    constructor
    · intro a b
      unfold CheckLink
      rw [if_neg hp2]
      simp
    · intro a b
      unfold CheckLink
      rw [if_neg hp2]
      simp

theorem C4_witness :
    witCtx.hasPlayer = false ∧ CheckLink witCtx 0 1 false = true :=
  ⟨rfl, (C4_checkLink witCtx).1 rfl 0 1 false⟩

/-- C5: for a DistanceMap constructed with maxSystems = k ≥ 0 the final set
of systems holding a finalized entry has size at most k, and for one
constructed with maxDays = d ≥ 0 every system with a finalized entry is at
most d days away. -/
theorem C5_bounds (ctx : Context) :
    (0 ≤ ctx.maxSystems → ((DistanceMap.Systems ctx).length : Int) ≤ ctx.maxSystems) ∧
    (0 ≤ ctx.maxDays → ∀ S : Nat, DistanceMap.HasRoute ctx S = true →
      DistanceMap.Days ctx S ≤ ctx.maxDays) := by
  constructor
  · intro hms
    have hlen := (inv_search ctx).routeLen hms
    unfold DistanceMap.Systems DistanceMap.routeOf
    rw [List.length_map]
    exact hlen
  · intro hmd S hr
    unfold DistanceMap.HasRoute DistanceMap.routeOf at hr
    obtain ⟨e, he⟩ := Option.isSome_iff_exists.mp hr
    unfold DistanceMap.Days DistanceMap.routeOf
    rw [he]
    exact (inv_search ctx).routeDays hmd S e (findEdge_mem S (search ctx).route e he)

/-- The bare-system DistanceMap on witGraph bounded to one system and zero
days. -/
def witCtxB : Context := DistanceMap.ofSystem witGraph 0 1 0

theorem C5_witness :
    (0 ≤ witCtxB.maxSystems ∧
      ((DistanceMap.Systems witCtxB).length : Int) ≤ witCtxB.maxSystems) ∧
    (0 ≤ witCtxB.maxDays ∧ DistanceMap.HasRoute witCtxB 0 = true ∧
      DistanceMap.Days witCtxB 0 ≤ witCtxB.maxDays) :=
  ⟨⟨by decide, (C5_bounds witCtxB).1 (by decide)⟩,
   ⟨by decide, by decide, (C5_bounds witCtxB).2 (by decide) 0 (by decide)⟩⟩

theorem ofSystem_step_hyper (g : StarGraph) (c0 : Nat) (mS mD : Int)
    (u v : Nat) (cost : Int)
    (hstep : EligibleStep (DistanceMap.ofSystem g c0 mS mD) u v cost) :
    v ∈ g.links u ∧ cost = 100 := by
  cases hstep with
  | hyper hh hmem hc => exact ⟨hmem, rfl⟩
  | jump hf hr hmem hc => exact absurd rfl hf
  | wormhole hh hmem hc => exact Bool.noConfusion hh

/-- C10: a DistanceMap constructed from a bare system with no player and no
ship defaults to hyperlane-only travel: hyperspace fuel 100, jump fuel 0 and
jump range 0 (so no jump-drive proximity edge is ever eligible), and
useWormholes false (so no wormhole edge is ever eligible); every eligible
edge is a hyperlane link costing 100 fuel, and every finalized route costs
exactly 100 fuel per day of travel, one hyperlane link per day. -/
theorem C10_bare_defaults (g : StarGraph) (c0 : Nat) (mS mD : Int) :
    (DistanceMap.ofSystem g c0 mS mD).hyperspaceFuel = 100 ∧
    (DistanceMap.ofSystem g c0 mS mD).jumpFuel = 0 ∧
    (DistanceMap.ofSystem g c0 mS mD).jumpRange = 0 ∧
    (DistanceMap.ofSystem g c0 mS mD).useWormholes = false ∧
    (∀ u v : Nat, ∀ cost : Int,
      EligibleStep (DistanceMap.ofSystem g c0 mS mD) u v cost →
      v ∈ g.links u ∧ cost = 100) ∧
    (∀ S : Nat, ∀ e : Edge,
      findEdge S (search (DistanceMap.ofSystem g c0 mS mD)).route = some e →
      e.fuel = 100 * e.days) := by
  refine ⟨rfl, rfl, rfl, rfl, ?_, ?_⟩
  · exact fun u v cost hstep => ofSystem_step_hyper g c0 mS mD u v cost hstep
  · intro S e he
    have hr : Reaches (DistanceMap.ofSystem g c0 mS mD) S e :=
      (inv_search (DistanceMap.ofSystem g c0 mS mD)).routeSound S e
        (findEdge_mem S (search (DistanceMap.ofSystem g c0 mS mD)).route e he)
    clear he
    induction hr with
    | root => rfl
    | step u e2 v cost hr2 hstep ih =>
      obtain ⟨-, rfl⟩ := ofSystem_step_hyper g c0 mS mD u v cost hstep
      show e2.fuel + 100 = 100 * (e2.days + 1)
      omega

theorem C10_witness :
    findEdge 0 (search (DistanceMap.ofSystem witGraph 0 (-1) (-1))).route
      = some rootEdge ∧
    rootEdge.fuel = 100 * rootEdge.days :=
  ⟨by decide,
    (C10_bare_defaults witGraph 0 (-1) (-1)).2.2.2.2.2 0 rootEdge (by decide)⟩

/-- Chain structure of the route mapping: reading the association list from
newest entry to oldest, each edge either is the root edge of the center
system or points through prev to a strictly earlier finalized system. -/
inductive RouteWF (ctx : Context) : List (Nat × Edge) → Prop
  | nil : RouteWF ctx []
  | consRoot (R : List (Nat × Edge)) : RouteWF ctx R →
      RouteWF ctx ((ctx.center, rootEdge) :: R)
  | consStep (S : Nat) (e : Edge) (p : Nat) (ep : Edge) (R : List (Nat × Edge)) :
      e.prev = some p → (p, ep) ∈ R → RouteWF ctx R → RouteWF ctx ((S, e) :: R)

/-- The chain invariant: the route mapping is chain-well-formed and every
queued candidate is either the root candidate or points through prev to an
already finalized system. -/
structure ChainInv (ctx : Context) (s : SearchState) : Prop where
  routeChain : RouteWF ctx s.route
  queueChain : ∀ q ∈ s.queue,
    (Prod.fst q = ctx.center ∧ Prod.snd q = rootEdge) ∨
      ∃ p ep, (Prod.snd q).prev = some p ∧ (p, ep) ∈ s.route

theorem chainInv_init (ctx : Context) : ChainInv ctx (initState ctx) := by
  constructor
  · exact RouteWF.nil
  · intro q hq
    rcases List.mem_singleton.mp hq with rfl
    exact Or.inl ⟨rfl, rfl⟩

theorem routeWF_cons_of_queue (ctx : Context) (s : SearchState) (hC : ChainInv ctx s)
    (sys : Nat) (c : Edge) (hmem : (sys, c) ∈ s.queue) :
    RouteWF ctx ((sys, c) :: s.route) := by
  rcases hC.queueChain (sys, c) hmem with ⟨h1, h2⟩ | ⟨p, ep, hprev, hmemp⟩
  · have h1b : sys = ctx.center := h1
    have h2b : c = rootEdge := h2
    rw [h1b, h2b]
    exact RouteWF.consRoot s.route hC.routeChain
  · exact RouteWF.consStep sys c p ep s.route hprev hmemp hC.routeChain

theorem chainInv_step (ctx : Context) (s s2 : SearchState) (hC : ChainInv ctx s)
    (h : stepOnce ctx s = some s2) : ChainInv ctx s2 := by
  obtain ⟨hstop, hlen, sys, c, rest, hq, hbr⟩ := stepOnce_cases ctx s s2 h
  have hperm := popBest_perm s.queue (sys, c) rest hq
  have hcq : (sys, c) ∈ s.queue := hperm.mem_iff.mpr (List.mem_cons_self _ _)
  have hrestq : ∀ z ∈ rest, z ∈ s.queue := fun z hz =>
    hperm.mem_iff.mpr (List.mem_cons.mpr (Or.inr hz))
  rcases hbr with ⟨hsome, rfl⟩ | ⟨hnone, hbr⟩
  · exact ⟨hC.routeChain, fun q hq2 => hC.queueChain q (hrestq q hq2)⟩
  · have hwf2 : RouteWF ctx ((sys, c) :: s.route) := routeWF_cons_of_queue ctx s hC sys c hcq
    have hqrest : ∀ q ∈ rest,
        (Prod.fst q = ctx.center ∧ Prod.snd q = rootEdge) ∨
          ∃ p ep, (Prod.snd q).prev = some p ∧ (p, ep) ∈ (sys, c) :: s.route := by
      intro q hq2
      rcases hC.queueChain q (hrestq q hq2) with h1 | ⟨p, ep, hprev, hmemp⟩
      · exact Or.inl h1
      · exact Or.inr ⟨p, ep, hprev, List.mem_cons.mpr (Or.inr hmemp)⟩
    rcases hbr with ⟨hdest, rfl⟩ | ⟨hndest, hdays, rfl⟩ | ⟨hndest, hnd, rfl⟩
    · exact ⟨hwf2, hqrest⟩
    · exact ⟨hwf2, hqrest⟩
    · refine ⟨hwf2, ?_⟩
      intro q hq2
      rcases List.mem_append.mp hq2 with h2 | h2
      · exact hqrest q h2
      · obtain ⟨qv, qc⟩ := q
        obtain ⟨⟨cost, hstep, rfl⟩, -⟩ :=
          (mem_expand_iff ctx ((sys, c) :: s.route) sys c qv qc).mp h2
        exact Or.inr ⟨sys, c, rfl, List.mem_cons_self _ _⟩

theorem chainInv_run (ctx : Context) (n : Nat) (s : SearchState) (hC : ChainInv ctx s) :
    ChainInv ctx (run ctx n s) := by
  induction n generalizing s with
  | zero => exact hC
  | succ m ih =>
    unfold run
    cases hs : stepOnce ctx s with
    | none => exact hC
    | some s2 => exact ih s2 (chainInv_step ctx s s2 hC hs)

theorem chainInv_search (ctx : Context) : ChainInv ctx (search ctx) :=
  chainInv_run ctx (fuelBound ctx) (initState ctx) (chainInv_init ctx)

theorem routeWF_split (ctx : Context) (R : List (Nat × Edge)) (hwf : RouteWF ctx R) :
    ∀ (pre : List (Nat × Edge)) (S : Nat) (e : Edge) (post : List (Nat × Edge)),
      R = pre ++ (S, e) :: post →
      (S = ctx.center ∧ e = rootEdge) ∨ ∃ p ep, e.prev = some p ∧ (p, ep) ∈ post := by
  induction hwf with
  | nil =>
    intro pre S e post h
    cases pre with
    | nil => exact List.noConfusion h
    | cons x xs => exact List.noConfusion h
  | consRoot R hwf ih =>
    intro pre S e post h
    cases pre with
    | nil =>
      simp only [List.nil_append] at h
      obtain ⟨h1, h2⟩ := List.cons.injEq _ _ _ _ ▸ h
      obtain ⟨h3, h4⟩ := Prod.mk.injEq _ _ _ _ ▸ h1
      exact Or.inl ⟨h3.symm, h4.symm⟩
    | cons x xs =>
      simp only [List.cons_append] at h
      obtain ⟨h1, h2⟩ := List.cons.injEq _ _ _ _ ▸ h
      exact ih xs S e post h2
  | consStep S0 e0 p ep R hprev hmemp hwf ih =>
    intro pre S e post h
    cases pre with
    | nil =>
      simp only [List.nil_append] at h
      obtain ⟨h1, h2⟩ := List.cons.injEq _ _ _ _ ▸ h
      obtain ⟨h3, h4⟩ := Prod.mk.injEq _ _ _ _ ▸ h1
      refine Or.inr ⟨p, ep, ?_, ?_⟩
      · rw [← h4]; exact hprev
      · rw [← h2]; exact hmemp
    | cons x xs =>
      simp only [List.cons_append] at h
      obtain ⟨h1, h2⟩ := List.cons.injEq _ _ _ _ ▸ h
      exact ih xs S e post h2

theorem chainFrom_succ_some (R : List (Nat × Edge)) (n : Nat) (S : Nat) (e : Edge)
    (h : findEdge S R = some e) :
    chainFrom R (n + 1) S = (S, e) :: (match e.prev with
      | none => []
      | some p => chainFrom R n p) := by
  have hdef : chainFrom R (n + 1) S = (match findEdge S R with
    | none => []
    | some e2 => (S, e2) :: (match e2.prev with
      | none => []
      | some p => chainFrom R n p)) := rfl
  rw [hdef, h]

theorem chainFrom_succ_none (R : List (Nat × Edge)) (n : Nat) (S : Nat)
    (h : findEdge S R = none) : chainFrom R (n + 1) S = [] := by
  unfold chainFrom
  rw [h]

theorem chainFrom_succ_root (R : List (Nat × Edge)) (n : Nat) (S : Nat) (e : Edge)
    (h : findEdge S R = some e) (hp : e.prev = none) :
    chainFrom R (n + 1) S = [(S, e)] := by
  rw [chainFrom_succ_some R n S e h, hp]

theorem chainFrom_succ_step (R : List (Nat × Edge)) (n : Nat) (S : Nat) (e : Edge)
    (p : Nat) (h : findEdge S R = some e) (hp : e.prev = some p) :
    chainFrom R (n + 1) S = (S, e) :: chainFrom R n p := by
  rw [chainFrom_succ_some R n S e h, hp]

theorem chainFrom_spec (ctx : Context) (R : List (Nat × Edge)) (hwf : RouteWF ctx R)
    (hnd : (R.map Prod.fst).Nodup) :
    ∀ (n : Nat) (S : Nat) (e : Edge) (pre post : List (Nat × Edge)),
      R = pre ++ (S, e) :: post → post.length < n →
      ∃ l, chainFrom R n S = (S, e) :: l ∧
        ((S, e) :: l).getLast? = some (ctx.center, rootEdge) := by
  intro n
  induction n with
  | zero =>
    intro S e pre post hsplit hlt
    omega
  | succ m ih =>
    intro S e pre post hsplit hlt
    have hmem : (S, e) ∈ R := by
      rw [hsplit]
      exact List.mem_append.mpr (Or.inr (List.mem_cons_self _ _))
    have hfe : findEdge S R = some e := findEdge_of_mem S e R hnd hmem
    rcases routeWF_split ctx R hwf pre S e post hsplit with ⟨h1, h2⟩ | ⟨p, ep, hprev, hmemp⟩
    · refine ⟨[], ?_, ?_⟩
      · rw [chainFrom_succ_root R m S e hfe (by rw [h2]; rfl)]
      · rw [h1, h2]
        rfl
    · obtain ⟨pre2, post2, hpost⟩ := List.append_of_mem hmemp
      have hsplit2 : R = (pre ++ (S, e) :: pre2) ++ (p, ep) :: post2 := by
        rw [hsplit, hpost]
        simp
      have hlen2 : post.length = pre2.length + 1 + post2.length := by
        rw [hpost]
        simp
        omega
      have hlt2 : post2.length < m := by omega
      obtain ⟨l2, hchain2, hlast2⟩ := ih p ep (pre ++ (S, e) :: pre2) post2 hsplit2 hlt2
      refine ⟨(p, ep) :: l2, ?_, ?_⟩
      · rw [chainFrom_succ_step R m S e p hfe hprev, hchain2]
      · rw [List.getLast?_cons_cons]
        exact hlast2

/-- C6: for every RoutePlan whose destination is reachable, Plan() is the
ordered system sequence from the start to the destination: its first element
is the start system and its last element is the destination. -/
theorem C6_plan_endpoints (ctx : Context) (dest : Nat)
    (_hd : ctx.destination = some dest)
    (hr : RoutePlan.hasRouteOf ctx dest = true) :
    (RoutePlan.Plan ctx dest).head? = some ctx.center ∧
    (RoutePlan.Plan ctx dest).getLast? = some dest := by
  obtain ⟨e, he⟩ := Option.isSome_iff_exists.mp hr
  obtain ⟨pre, post, hsplit⟩ :=
    List.append_of_mem (findEdge_mem dest (search ctx).route e he)
  have hlt : post.length < (search ctx).route.length := by
    rw [hsplit]
    simp
    omega
  obtain ⟨l, hchain, hlast⟩ := chainFrom_spec ctx (search ctx).route
    (chainInv_search ctx).routeChain (inv_search ctx).nodupKeys
    (search ctx).route.length dest e pre post hsplit hlt
  have hplan : RoutePlan.planOf ctx dest = (dest, e) :: l := hchain
  constructor
  · unfold RoutePlan.Plan
    rw [hplan, List.head?_reverse, List.getLast?_map, hlast]
    rfl
  · unfold RoutePlan.Plan
    rw [hplan, List.getLast?_reverse, List.head?_map]
    rfl

/-- The destination-scoped DistanceMap built by a RoutePlan from system 0 to
system 1 of witGraph (spec section 4.3), with the bare-system defaults. -/
def witCtxD : Context :=
  { graph := witGraph, center := 0, destination := some 1,
    maxSystems := -1, maxDays := -1,
    hyperspaceFuel := 100, jumpFuel := 0, useWormholes := false, jumpRange := 0,
    hasPlayer := false, visited := fun _ => false }

theorem C6_witness :
    witCtxD.destination = some 1 ∧ RoutePlan.hasRouteOf witCtxD 1 = true ∧
    (RoutePlan.Plan witCtxD 1).head? = some witCtxD.center ∧
    (RoutePlan.Plan witCtxD 1).getLast? = some 1 :=
  ⟨rfl, by decide, (C6_plan_endpoints witCtxD 1 rfl (by decide)).1,
    (C6_plan_endpoints witCtxD 1 rfl (by decide)).2⟩

theorem stepCosts_sum (l : List (Nat × Edge)) : ∀ (s : Nat) (e : Edge),
    ((stepCosts ((s, e) :: l)).map Prod.snd).sum = e.fuel := by
  induction l with
  | nil =>
    intro s e
    simp [stepCosts]
  | cons x xs ih =>
    intro s e
    obtain ⟨t, e2⟩ := x
    have hdef : stepCosts ((s, e) :: (t, e2) :: xs) =
        (s, e.fuel - e2.fuel) :: stepCosts ((t, e2) :: xs) := rfl
    rw [hdef, List.map_cons, List.sum_cons, ih t e2]
    omega

/-- C7: for every RoutePlan whose destination is reachable, the per-step fuel
values of FuelCosts — differences of consecutive cumulative fuel values along
the reconstructed chain — sum to RequiredFuel. -/
theorem C7_fuel_sum (ctx : Context) (dest : Nat)
    (_hd : ctx.destination = some dest)
    (hr : RoutePlan.hasRouteOf ctx dest = true) :
    ((RoutePlan.FuelCosts ctx dest).map Prod.snd).sum =
      RoutePlan.RequiredFuel ctx dest := by
  obtain ⟨e, he⟩ := Option.isSome_iff_exists.mp hr
  cases hcase : (search ctx).route with
  | nil =>
    rw [hcase] at he
    exact Option.noConfusion he
  | cons x xs =>
    have hlen : (search ctx).route.length = xs.length + 1 := by rw [hcase]; rfl
    have hplan : RoutePlan.planOf ctx dest = (dest, e) :: (match e.prev with
        | none => []
        | some p => chainFrom (search ctx).route xs.length p) := by
      unfold RoutePlan.planOf
      rw [hlen]
      exact chainFrom_succ_some (search ctx).route xs.length dest e he
    unfold RoutePlan.FuelCosts RoutePlan.RequiredFuel
    rw [hplan, stepCosts_sum]

theorem C7_witness :
    witCtxD.destination = some 1 ∧ RoutePlan.hasRouteOf witCtxD 1 = true ∧
    ((RoutePlan.FuelCosts witCtxD 1).map Prod.snd).sum =
      RoutePlan.RequiredFuel witCtxD 1 :=
  ⟨rfl, by decide, C7_fuel_sum witCtxD 1 rfl (by decide)⟩

/-- C8: for every RoutePlan whose destination never acquires a finalized
edge, the result is purely result-shaped: HasRoute is false, Days returns the
sentinel -1, and Plan is the empty sequence (no exception is possible: all
the model functions are total). -/
theorem C8_unreachable (ctx : Context) (dest : Nat)
    (_hd : ctx.destination = some dest)
    (hnone : findEdge dest (search ctx).route = none) :
    RoutePlan.hasRouteOf ctx dest = false ∧
    RoutePlan.Days ctx dest = -1 ∧
    RoutePlan.Plan ctx dest = [] := by
  have hplan : RoutePlan.planOf ctx dest = [] := by
    unfold RoutePlan.planOf
    cases hcase : (search ctx).route.length with
    | zero => rfl
    | succ k => exact chainFrom_succ_none (search ctx).route k dest hnone
  refine ⟨?_, ?_, ?_⟩
  · unfold RoutePlan.hasRouteOf
    rw [hnone]
    rfl
  · unfold RoutePlan.Days
    rw [hplan]
  · unfold RoutePlan.Plan
    rw [hplan]
    rfl

/-- A destination-scoped DistanceMap whose destination, system 5, is not in
witGraph at all, so it never acquires a finalized edge. -/
def witCtxU : Context :=
  { graph := witGraph, center := 0, destination := some 5,
    maxSystems := -1, maxDays := -1,
    hyperspaceFuel := 100, jumpFuel := 0, useWormholes := false, jumpRange := 0,
    hasPlayer := false, visited := fun _ => false }

theorem C8_witness :
    witCtxU.destination = some 5 ∧
    findEdge 5 (search witCtxU).route = none ∧
    RoutePlan.hasRouteOf witCtxU 5 = false ∧
    RoutePlan.Days witCtxU 5 = -1 ∧
    RoutePlan.Plan witCtxU 5 = [] :=
  ⟨rfl, by decide, (C8_unreachable witCtxU 5 rfl (by decide)).1,
    (C8_unreachable witCtxU 5 rfl (by decide)).2.1,
    (C8_unreachable witCtxU 5 rfl (by decide)).2.2⟩

/-- A well-formed finite system graph for a search: the center is one of the
systems of the graph and every hyperlane, jump-proximity and wormhole target of a
system is again a system of the graph. -/
structure CtxWF (ctx : Context) : Prop where
  centerMem : ctx.center ∈ ctx.graph.systems
  linksMem : ∀ u ∈ ctx.graph.systems, ∀ v ∈ ctx.graph.links u, v ∈ ctx.graph.systems
  jumpMem : ∀ u ∈ ctx.graph.systems, ∀ v ∈ ctx.graph.jumpNeighbors u,
    v ∈ ctx.graph.systems
  wormMem : ∀ u ∈ ctx.graph.systems, ∀ v ∈ ctx.graph.wormholes u, v ∈ ctx.graph.systems

/-- All systems occurring in the route mapping and the candidate queue belong
to the graph. -/
structure KeysInv (ctx : Context) (s : SearchState) : Prop where
  routeKeys : ∀ S e, (S, e) ∈ s.route → S ∈ ctx.graph.systems
  queueKeys : ∀ q ∈ s.queue, Prod.fst q ∈ ctx.graph.systems

theorem keysInv_init (ctx : Context) (hwf : CtxWF ctx) : KeysInv ctx (initState ctx) := by
  constructor
  · intro S e h
    cases h
  · intro q hq
    rcases List.mem_singleton.mp hq with rfl
    exact hwf.centerMem

theorem keysInv_step (ctx : Context) (s s2 : SearchState) (hwf : CtxWF ctx)
    (hK : KeysInv ctx s) (h : stepOnce ctx s = some s2) : KeysInv ctx s2 := by
  obtain ⟨hstop, hlen, sys, c, rest, hq, hbr⟩ := stepOnce_cases ctx s s2 h
  have hperm := popBest_perm s.queue (sys, c) rest hq
  have hcq : (sys, c) ∈ s.queue := hperm.mem_iff.mpr (List.mem_cons_self _ _)
  have hrestq : ∀ z ∈ rest, z ∈ s.queue := fun z hz =>
    hperm.mem_iff.mpr (List.mem_cons.mpr (Or.inr hz))
  have hsysmem : sys ∈ ctx.graph.systems := hK.queueKeys (sys, c) hcq
  have hroute2 : ∀ S e, (S, e) ∈ (sys, c) :: s.route → S ∈ ctx.graph.systems := by
    intro S e hSe
    rcases List.mem_cons.mp hSe with heq | hmem
    · obtain ⟨h1, h2⟩ := Prod.mk.injEq _ _ _ _ ▸ heq
      rw [h1]
      exact hsysmem
    · exact hK.routeKeys S e hmem
  rcases hbr with ⟨hsome, rfl⟩ | ⟨hnone, hbr⟩
  · exact ⟨hK.routeKeys, fun q hq2 => hK.queueKeys q (hrestq q hq2)⟩
  · rcases hbr with ⟨hdest, rfl⟩ | ⟨hndest, hdays, rfl⟩ | ⟨hndest, hnd, rfl⟩
    · exact ⟨hroute2, fun q hq2 => hK.queueKeys q (hrestq q hq2)⟩
    · exact ⟨hroute2, fun q hq2 => hK.queueKeys q (hrestq q hq2)⟩
    · refine ⟨hroute2, ?_⟩
      intro q hq2
      rcases List.mem_append.mp hq2 with h2 | h2
      · exact hK.queueKeys q (hrestq q h2)
      · obtain ⟨qv, qc⟩ := q
        obtain ⟨⟨cost, hstep, rfl⟩, -⟩ :=
          (mem_expand_iff ctx ((sys, c) :: s.route) sys c qv qc).mp h2
        show qv ∈ ctx.graph.systems
        cases hstep with
        | hyper hh hmem hc => exact hwf.linksMem sys hsysmem qv hmem
        | jump hf hr2 hmem hc => exact hwf.jumpMem sys hsysmem qv hmem
        | wormhole hh hmem hc => exact hwf.wormMem sys hsysmem qv hmem

theorem route_len_le (ctx : Context) (s : SearchState) (hK : KeysInv ctx s)
    (hnd : (s.route.map Prod.fst).Nodup) :
    s.route.length ≤ ctx.graph.systems.length := by
  have hsub : (s.route.map Prod.fst).toFinset ⊆ ctx.graph.systems.toFinset := by
    intro a ha
    rw [List.mem_toFinset] at ha ⊢
    obtain ⟨⟨S, e⟩, hmem, rfl⟩ := List.mem_map.mp ha
    exact hK.routeKeys S e hmem
  have h1 : (s.route.map Prod.fst).toFinset.card = s.route.length := by
    rw [List.toFinset_card_of_nodup hnd, List.length_map]
  have h2 : ctx.graph.systems.toFinset.card ≤ ctx.graph.systems.length :=
    List.toFinset_card_le ctx.graph.systems
  have h3 := Finset.card_le_card hsub
  omega

theorem le_foldr_max (f : Nat → Nat) (l : List Nat) (u : Nat) (hu : u ∈ l) :
    f u ≤ l.foldr (fun x m => max (f x) m) 0 := by
  induction l with
  | nil => cases hu
  | cons x xs ih =>
    rcases List.mem_cons.mp hu with rfl | h2
    · exact le_max_left _ _
    · exact le_trans (ih h2) (le_max_right _ _)

theorem expand_length_le (ctx : Context) (R : List (Nat × Edge)) (u : Nat) (e : Edge)
    (hu : u ∈ ctx.graph.systems) : (expand ctx R u e).length ≤ degBound ctx := by
  have h1 : (expand ctx R u e).length ≤ (expandList ctx u e).length :=
    List.length_filter_le _ _
  have h2 : (expandList ctx u e).length ≤
      (ctx.graph.links u).length + (ctx.graph.jumpNeighbors u).length +
        (ctx.graph.wormholes u).length := by
    unfold expandList
    rw [List.length_append, List.length_append]
    have hA : (if ctx.hyperspaceFuel ≠ 0 then
        (ctx.graph.links u).filterMap (fun v =>
          if CheckLink ctx u v false then some (v, relax ctx e u ctx.hyperspaceFuel)
          else none)
      else []).length ≤ (ctx.graph.links u).length := by
      by_cases hc : ctx.hyperspaceFuel ≠ 0
      · rw [if_pos hc]
        exact List.length_filterMap_le _ _
      · rw [if_neg hc]
        simp
    have hB : (if ctx.jumpFuel ≠ 0 ∧ ctx.jumpRange ≠ 0 then
        (ctx.graph.jumpNeighbors u).filterMap (fun v =>
          if CheckLink ctx u v true then some (v, relax ctx e u ctx.jumpFuel) else none)
      else []).length ≤ (ctx.graph.jumpNeighbors u).length := by
      by_cases hc : ctx.jumpFuel ≠ 0 ∧ ctx.jumpRange ≠ 0
      · rw [if_pos hc]
        exact List.length_filterMap_le _ _
      · rw [if_neg hc]
        simp
    have hC : (if ctx.useWormholes = true then
        (ctx.graph.wormholes u).filterMap (fun v =>
          if CheckWormhole ctx u v then some (v, relax ctx e u 0) else none)
      else []).length ≤ (ctx.graph.wormholes u).length := by
      by_cases hc : ctx.useWormholes = true
      · rw [if_pos hc]
        exact List.length_filterMap_le _ _
      · rw [if_neg hc]
        simp
    omega
  have h3 : (ctx.graph.links u).length + (ctx.graph.jumpNeighbors u).length +
      (ctx.graph.wormholes u).length ≤ degBound ctx :=
    le_foldr_max (fun x => (ctx.graph.links x).length + (ctx.graph.jumpNeighbors x).length
      + (ctx.graph.wormholes x).length) ctx.graph.systems u hu
  omega

/-- The termination measure of the search loop: unfinalized systems weighted
by the maximal expansion size, plus the queue length. -/
def measureOf (ctx : Context) (s : SearchState) : Nat :=
  (ctx.graph.systems.length - s.route.length) * (degBound ctx + 1) + s.queue.length

theorem measure_arith (N r D q q2 : Nat) (hrN : r + 1 ≤ N) (hq2 : q2 + 1 ≤ q + D) :
    (N - (r + 1)) * (D + 1) + q2 < (N - r) * (D + 1) + q := by
  have h5 : N - r = (N - (r + 1)) + 1 := by omega
  rw [h5, Nat.add_mul, Nat.one_mul]
  have h6 : q2 < (D + 1) + q := by omega
  calc (N - (r + 1)) * (D + 1) + q2
      < (N - (r + 1)) * (D + 1) + ((D + 1) + q) := Nat.add_lt_add_left h6 _
    _ = (N - (r + 1)) * (D + 1) + (D + 1) + q := (Nat.add_assoc _ _ _).symm

theorem measure_decrease (ctx : Context) (s s2 : SearchState) (hwf : CtxWF ctx)
    (hK : KeysInv ctx s) (hI : SearchInv ctx s) (h : stepOnce ctx s = some s2) :
    measureOf ctx s2 < measureOf ctx s := by
  have hK2 := keysInv_step ctx s s2 hwf hK h
  have hI2 := inv_step ctx s s2 hI h
  have hlen2 := route_len_le ctx s2 hK2 hI2.nodupKeys
  obtain ⟨hstop, hlen, sys, c, rest, hq, hbr⟩ := stepOnce_cases ctx s s2 h
  have hperm := popBest_perm s.queue (sys, c) rest hq
  have hcq : (sys, c) ∈ s.queue := hperm.mem_iff.mpr (List.mem_cons_self _ _)
  have hsysmem : sys ∈ ctx.graph.systems := hK.queueKeys (sys, c) hcq
  have hqlen : s.queue.length = rest.length + 1 := by
    rw [hperm.length_eq]
    rfl
  rcases hbr with ⟨hsome, rfl⟩ | ⟨hnone, hbr⟩
  · unfold measureOf
    dsimp only
    exact Nat.add_lt_add_left (by omega) _
  · rcases hbr with ⟨hdest, rfl⟩ | ⟨hndest, hdays, rfl⟩ | ⟨hndest, hnd, rfl⟩
    · unfold measureOf
      dsimp only
      simp only [List.length_cons]
      exact measure_arith ctx.graph.systems.length s.route.length (degBound ctx)
        s.queue.length rest.length (by simpa using hlen2) (by omega)
    · unfold measureOf
      dsimp only
      simp only [List.length_cons]
      exact measure_arith ctx.graph.systems.length s.route.length (degBound ctx)
        s.queue.length rest.length (by simpa using hlen2) (by omega)
    · unfold measureOf
      dsimp only
      simp only [List.length_cons, List.length_append]
      have hexp := expand_length_le ctx ((sys, c) :: s.route) sys c hsysmem
      exact measure_arith ctx.graph.systems.length s.route.length (degBound ctx)
        s.queue.length (rest.length + (expand ctx ((sys, c) :: s.route) sys c).length)
        (by simpa using hlen2) (by omega)

theorem stepOnce_queue_nil (ctx : Context) (s : SearchState) (h : s.queue = []) :
    stepOnce ctx s = none := by
  unfold stepOnce
  by_cases h1 : s.stopped = true
  · rw [if_pos h1]
  · rw [if_neg h1]
    by_cases h2 : 0 ≤ ctx.maxSystems ∧ ctx.maxSystems ≤ (s.route.length : Int)
    · rw [if_pos h2]
    · rw [if_neg h2, h]
      rfl

theorem run_reaches_done (ctx : Context) (hwf : CtxWF ctx) :
    ∀ (n : Nat) (s : SearchState), SearchInv ctx s → KeysInv ctx s →
      measureOf ctx s ≤ n → stepOnce ctx (run ctx n s) = none := by
  intro n
  induction n with
  | zero =>
    intro s hI hK hm
    unfold measureOf at hm
    have hq0 : s.queue.length = 0 := Nat.le_zero.mp (le_trans (Nat.le_add_left _ _) hm)
    exact stepOnce_queue_nil ctx s (List.length_eq_zero.mp hq0)
  | succ m ih =>
    intro s hI hK hm
    unfold run
    cases hs : stepOnce ctx s with
    | none => exact hs
    | some s2 =>
      have hdec := measure_decrease ctx s s2 hwf hK hI hs
      exact ih s2 (inv_step ctx s s2 hI hs) (keysInv_step ctx s s2 hwf hK hs) (by omega)

theorem measure_init (ctx : Context) : measureOf ctx (initState ctx) = fuelBound ctx := by
  unfold measureOf initState fuelBound
  simp

/-- C9: for every well-formed finite system graph and every start
specification, the search loop inside the DistanceMap constructor terminates:
after the provably sufficient step budget of the search, the loop has reached
a state where no further step is possible — a stop condition fired or the
candidate queue drained — even when no maxSystems/maxDays bounds are set. -/
theorem C9_terminates (ctx : Context) (hwf : CtxWF ctx) :
    stepOnce ctx (search ctx) = none := by
  unfold search
  exact run_reaches_done ctx hwf (fuelBound ctx) (initState ctx) (inv_init ctx)
    (keysInv_init ctx hwf) (le_of_eq (measure_init ctx))

theorem C9_witness : CtxWF witCtx ∧ stepOnce witCtx (search witCtx) = none := by
  have hwf : CtxWF witCtx := ⟨by decide, by decide, by decide, by decide⟩
  exact ⟨hwf, C9_terminates witCtx hwf⟩
